import Mathlib

/-!
Verification of the incremental parser-combinator engine (`src/parser3.ts`,
with the pattern primitive `regex` from `src/parser.ts`).

Strings are modelled as `List Char`.  A task of the engine is modelled as a
value of the inductive type `ParserTask` carrying the closure state of its
handler together with the `result` field; `ParserTask.step` embeds the
`step()` method.  JavaScript runtime errors (calling `undefined`, as
happens for `sequence([])` where `parsers[0]` does not exist) are modelled
by `Option`: `none` means the engine threw.

The two-tier memoization of `memoize` is embedded separately as `memoApply`
acting on an explicit memo table; object identity of cached parsers/tasks is
modelled by returning the stored entry itself.
-/

/-- Input strings of the engine, modelled as lists of characters. -/
abbrev Str := List Char

/-- Parse-result values: `str`/`regex` produce a string, `sequence` produces
the list of its children's values (`choice` propagates a child value). -/
inductive Value where
  | vstr : Str → Value
  | vlist : List Value → Value

/-- Embedding of the `Result` type of parser3.ts: `Success{result, remaining}`
or `Failure`. -/
inductive Result where
  | success : Value → Str → Result
  | failure : Result

/-- The combinator language of the engine: `str(value)`, the pattern
primitive (`regex`, here with a literal search pattern), `choice(parsers)`
and `sequence(parsers)`. -/
inductive PExpr where
  | str : Str → PExpr
  | pat : Str → PExpr
  | alt : List PExpr → PExpr
  | seq : List PExpr → PExpr

/-- Embedding of `RegExp.exec` for a literal pattern: unanchored search for
the first occurrence of `pat` in `input`, returning the matched text
(parser.ts line 282: `const match = pattern.exec(input)`). -/
def execFirst (pat : Str) : Str → Option Str
  | [] => if pat.isPrefixOf ([] : Str) then some pat else none
  | c :: rest => if pat.isPrefixOf (c :: rest) then some pat else execFirst pat rest

/-- The state of a `ParserTask`: each constructor records the closure state
of the corresponding handler plus the task's `result` field (`none` while
unresolved).
* `strT value input result` — task of `str(value)` on `input`;
* `patT pat input result` — task of `regex(pat)` on `input`;
* `altT children result` — task of `choice`, holding the child tasks
  (created eagerly at task creation, parser3.ts lines 109-112);
* `seqT parsers acc remaining i cur result` — task of `sequence`, holding
  the parser list, the accumulated `result` array, the `remaining` cursor,
  the current index `i` and the currently active child task
  (parser3.ts lines 136-139). -/
inductive ParserTask where
  | strT : Str → Str → Option Result → ParserTask
  | patT : Str → Str → Option Result → ParserTask
  | altT : List ParserTask → Option Result → ParserTask
  | seqT : List PExpr → List Value → Str → Nat → ParserTask → Option Result → ParserTask

/-- The `result` field of a `ParserTask` (parser3.ts line 60). -/
def ParserTask.result : ParserTask → Option Result
  | .strT _ _ r => r
  | .patT _ _ r => r
  | .altT _ r => r
  | .seqT _ _ _ _ _ r => r

/-- The `done` getter of a `ParserTask` (parser3.ts lines 79-81): true iff
the task has resolved. -/
def ParserTask.done (t : ParserTask) : Bool := t.result.isSome

/-- The declaration-order scan of `choice` (parser3.ts lines 119-127): the
result of the first child whose stored result is a `Success`, `Failure` if
none is. -/
def firstSuccess : List ParserTask → Result
  | [] => .failure
  | t :: ts =>
    match t.result with
    | some (.success v rem) => .success v rem
    | _ => firstSuccess ts

/-- The index field of a `sequence` task (0 for every other task); used to
state which parsers of the list have been given a task. -/
def seqIdx : ParserTask → Nat
  | .seqT _ _ _ i _ _ => i
  | _ => 0

/-- The stored result of the first child of a `choice` task (used to exhibit
counterexamples about the stepping protocol). -/
def firstChildResult : ParserTask → Option Result
  | .altT (c :: _) _ => c.result
  | _ => none

mutual

/-- ParserTask creation: the embedding of applying a (memoized) `Parser` to an
input.  `str`/`regex` capture their closure state; `choice` eagerly creates
one child task per alternative (parser3.ts lines 109-112); `sequence`
evaluates `parsers[i](remaining)` with `i = 0` at creation time
(parser3.ts line 139) — for an empty parser list, `parsers[0]` is
`undefined` and calling it throws, modelled by `none`. -/
def mkTask : PExpr → Str → Option ParserTask
  | .str v, input => some (.strT v input none)
  | .pat p, input => some (.patT p input none)
  | .alt ps, input =>
    match mkTasks ps input with
    | none => none
    | some cs => some (.altT cs none)
  | .seq [], _ => none
  | .seq (p0 :: rest), input =>
    match mkTask p0 input with
    | none => none
    | some cur => some (.seqT (p0 :: rest) [] input 0 cur none)
termination_by e _ => sizeOf e

/-- Creation of the child tasks of `choice`, one per alternative in
declaration order (parser3.ts lines 110-112). -/
def mkTasks : List PExpr → Str → Option (List ParserTask)
  | [], _ => some []
  | p :: ps, input =>
    match mkTask p input, mkTasks ps input with
    | some t, some ts => some (t :: ts)
    | _, _ => none
termination_by ps _ => sizeOf ps

end

mutual

/-- Embedding of `ParserTask.step` (parser3.ts lines 83-88) together with
each combinator's handler: if the task is already resolved the handler is
not invoked and the state is returned unchanged; otherwise the handler runs
once.  `none` models a thrown JavaScript error (calling an `undefined`
parser). -/
def ParserTask.step : ParserTask → Option ParserTask
  | .strT v input r =>
    if r.isSome then some (.strT v input r)
    else if v.isPrefixOf input then
      some (.strT v input (some (.success (.vstr v) (input.drop v.length))))
    else
      some (.strT v input (some .failure))
  | .patT p input r =>
    if r.isSome then some (.patT p input r)
    else
      match execFirst p input with
      | none => some (.patT p input (some .failure))
      | some m => some (.patT p input (some (.success (.vstr m) (input.drop m.length))))
  | .altT cs r =>
    if r.isSome then some (.altT cs r)
    else
      match stepAll cs with
      | none => none
      | some cs2 =>
        if cs2.all (fun c => c.result.isSome) then
          some (.altT cs2 (some (firstSuccess cs2)))
        else
          some (.altT cs2 none)
  | .seqT ps acc rem i cur r =>
    if r.isSome then some (.seqT ps acc rem i cur r)
    else
      match ParserTask.step cur with
      | none => none
      | some cur2 =>
        match cur2.result with
        | none => some (.seqT ps acc rem i cur2 none)
        | some .failure => some (.seqT ps acc rem i cur2 (some .failure))
        | some (.success v rem2) =>
          if i = ps.length - 1 then
            some (.seqT ps (acc ++ [v]) rem2 i cur2
              (some (.success (.vlist (acc ++ [v])) rem2)))
          else
            match ps[i+1]? with
            | none => none
            | some pn =>
              match mkTask pn rem2 with
              | none => none
              | some nxt => some (.seqT ps (acc ++ [v]) rem2 (i+1) nxt none)
termination_by t => sizeOf t

/-- The `for (const task of tasks) task.step()` loop of the `choice` handler
(parser3.ts lines 114-116): every child is stepped once per outer step
(stepping an already-resolved child leaves it unchanged). -/
def stepAll : List ParserTask → Option (List ParserTask)
  | [] => some []
  | t :: ts =>
    match ParserTask.step t, stepAll ts with
    | some t2, some ts2 => some (t2 :: ts2)
    | _, _ => none
termination_by ts => sizeOf ts

end

/-- `n` consecutive calls of `step()` on a task, threading the state. -/
def stepN : Nat → ParserTask → Option ParserTask
  | 0, t => some t
  | n+1, t =>
    match t.step with
    | none => none
    | some t2 => stepN n t2

/-- Embedding of `memoize` (parser3.ts lines 5-23): the memo table is an
explicit list of `(args, result)` entries; lookup scans the stored entries
in insertion order for the first whose arguments are deeply equal to the
call's (deep equality of the value-like argument lists is modelled as
decidable structural equality); on a miss the wrapped function runs and the
entry is appended (`memo.push`).  The returned `Bool` records whether the
wrapped function was invoked on this call. -/
def memoApply {A B : Type} [DecidableEq A] (fn : A → B) (memo : List (A × B))
    (args : A) : B × List (A × B) × Bool :=
  match memo.find? (fun item => item.1 = args) with
  | some item => (item.2, memo, false)
  | none =>
    let r := fn args
    (r, memo ++ [(args, r)], true)

mutual

/-- Reference semantics of a parser, written from the spec's description of
each combinator (spec sections 4.3-4.5 and 8): `str`/the pattern primitive
resolve as their handlers do; `choice` yields the earliest-declared
successful alternative on the original input; `sequence` runs its parsers
left to right against the progressively reduced remaining input. -/
def denote : PExpr → Str → Result
  | .str v, input =>
    if v.isPrefixOf input then .success (.vstr v) (input.drop v.length)
    else .failure
  | .pat p, input =>
    match execFirst p input with
    | none => .failure
    | some m => .success (.vstr m) (input.drop m.length)
  | .alt ps, input => denoteAlt ps input
  | .seq ps, input =>
    match denoteSeq ps input with
    | none => .failure
    | some (vs, rem) => .success (.vlist vs) rem
termination_by e _ => sizeOf e

/-- Reference semantics of `choice`: the result of the earliest-declared
alternative that succeeds on the input, `Failure` if none succeeds. -/
def denoteAlt : List PExpr → Str → Result
  | [], _ => .failure
  | p :: ps, input =>
    match denote p input with
    | .success v rem => .success v rem
    | .failure => denoteAlt ps input
termination_by ps _ => sizeOf ps

/-- Reference semantics of `sequence`: run each parser in declaration order
against the remaining input left by its predecessor; `some (values,
remaining)` when all succeed, `none` as soon as one fails. -/
def denoteSeq : List PExpr → Str → Option (List Value × Str)
  | [], rem => some ([], rem)
  | p :: ps, rem =>
    match denote p rem with
    | .failure => none
    | .success v rem2 =>
      match denoteSeq ps rem2 with
      | none => none
      | some (vs, remF) => some (v :: vs, remF)
termination_by ps _ => sizeOf ps

end

/-- The first `Success` of a list of results in declaration order,
`Failure` if there is none (the tie-break rule of `choice`). -/
def firstRes : List Result → Result
  | [] => .failure
  | .success v rem :: _ => .success v rem
  | .failure :: rs => firstRes rs

mutual

/-- Well-formedness of a parser expression: no empty `sequence` anywhere
(applying `sequence([])` to an input throws in the engine, see `mkTask`). -/
def wfE : PExpr → Bool
  | .str _ => true
  | .pat _ => true
  | .alt ps => wfL ps
  | .seq ps => !ps.isEmpty && wfL ps
termination_by e => sizeOf e

/-- Well-formedness of every member of a parser list. -/
def wfL : List PExpr → Bool
  | [] => true
  | p :: ps => wfE p && wfL ps
termination_by ps => sizeOf ps

end

/-- The index of the first parser of the list that fails when the list is
run sequentially from the given input (the list's length if all succeed). -/
def failIdx : List PExpr → Str → Nat
  | [], _ => 0
  | p :: ps, input =>
    match denote p input with
    | .failure => 0
    | .success _ rem2 => failIdx ps rem2 + 1

/-- The remaining input after the first `i` parsers of the list have
succeeded sequentially from the given input (meaningful for
`i ≤ failIdx`). -/
def remAt : List PExpr → Str → Nat → Str
  | _, input, 0 => input
  | [], input, _+1 => input
  | p :: ps, input, i+1 =>
    match denote p input with
    | .failure => input
    | .success _ rem2 => remAt ps rem2 i

/-- `ResolvesIn t n r` : driving `t` with `step()` resolves it for the first
time after exactly `n` calls, recording result `r`; the trace is the
deterministic one of `ParserTask.step` and no call throws. -/
inductive ResolvesIn : ParserTask → Nat → Result → Prop where
  | done : ∀ t r, t.result = some r → ResolvesIn t 0 r
  | step : ∀ t t2 n r, t.result = none → t.step = some t2 → ResolvesIn t2 n r →
      ResolvesIn t (n+1) r

/-- `Steps t n t2` : `n` `step()` calls take the unresolved task `t` to
`t2`, every intermediate state being unresolved and no call throwing. -/
inductive Steps : ParserTask → Nat → ParserTask → Prop where
  | refl : ∀ t, Steps t 0 t
  | step : ∀ t t1 n t2, t.result = none → t.step = some t1 → Steps t1 n t2 →
      Steps t (n+1) t2

/-- The task eventually resolves to `r` under repeated `step()` calls. -/
def Converges (t : ParserTask) (r : Result) : Prop := ∃ n, ResolvesIn t n r

/-- A stored result respects the suffix invariant relative to the original
input `I`: if it is a `Success`, its `remaining` is a suffix of `I`. -/
def resSuff (I : Str) : Option Result → Prop
  | some (.success _ rem) => ∃ p, p ++ rem = I
  | _ => True

/-- The suffix invariant of a task state relative to the original input `I`:
every input captured by a primitive sub-task, every `remaining` cursor and
every stored result's `remaining` is a suffix of `I`. -/
inductive TaskSuff (I : Str) : ParserTask → Prop where
  | strT : ∀ v inp r, (∃ p, p ++ inp = I) → resSuff I r → TaskSuff I (.strT v inp r)
  | patT : ∀ q inp r, (∃ p, p ++ inp = I) → resSuff I r → TaskSuff I (.patT q inp r)
  | altT : ∀ cs r, (∀ c ∈ cs, TaskSuff I c) → resSuff I r → TaskSuff I (.altT cs r)
  | seqT : ∀ ps acc rem i cur r, (∃ p, p ++ rem = I) → TaskSuff I cur →
      resSuff I r → TaskSuff I (.seqT ps acc rem i cur r)

theorem result_strT (v inp : Str) (r : Option Result) :
    (ParserTask.strT v inp r).result = r := rfl

theorem result_patT (p inp : Str) (r : Option Result) :
    (ParserTask.patT p inp r).result = r := rfl

theorem result_altT (cs : List ParserTask) (r : Option Result) :
    (ParserTask.altT cs r).result = r := rfl

theorem result_seqT (ps : List PExpr) (acc : List Value) (rem : Str) (i : Nat)
    (cur : ParserTask) (r : Option Result) :
    (ParserTask.seqT ps acc rem i cur r).result = r := rfl

/-- A resolved task is a fixed point of `step`: the handler is skipped and
the state (in particular the stored result) is returned unchanged. -/
theorem step_frozen (t : ParserTask) (r : Result) (h : t.result = some r) :
    t.step = some t := by
  cases t <;> simp [ParserTask.result] at h <;> simp [ParserTask.step, h]

theorem stepN_frozen (t : ParserTask) (r : Result) (h : t.result = some r) :
    ∀ n, stepN n t = some t := by
  intro n
  induction n with
  | zero => rfl
  | succ n ih => simp [stepN, step_frozen t r h, ih]

theorem stepN_add (a b : Nat) (t : ParserTask) :
    stepN (a + b) t = (stepN a t).bind (stepN b) := by
  induction a generalizing t with
  | zero => simp [stepN]
  | succ a ih =>
    have h1 : a + 1 + b = (a + b) + 1 := by omega
    rw [h1]
    simp only [stepN]
    cases t.step with
    | none => simp
    | some t2 => simpa using ih t2

theorem resolvesIn_zero (t : ParserTask) (r : Result) (h : ResolvesIn t 0 r) :
    t.result = some r := by
  cases h; assumption

theorem resolvesIn_succ_none (t : ParserTask) (n : Nat) (r : Result)
    (h : ResolvesIn t (n+1) r) : t.result = none := by
  cases h; assumption

theorem resolvesIn_succ_step (t t2 : ParserTask) (n : Nat) (r : Result)
    (h : ResolvesIn t (n+1) r) (hs : t.step = some t2) : ResolvesIn t2 n r := by
  cases h with
  | step _ t3 _ _ _ hs2 h3 =>
    rw [hs] at hs2
    cases hs2
    exact h3

/-- Stepping is deterministic, so a task resolves to a unique result at a
unique first time. -/
theorem resolvesIn_det (t : ParserTask) (n m : Nat) (r r2 : Result)
    (h1 : ResolvesIn t n r) (h2 : ResolvesIn t m r2) : r = r2 ∧ n = m := by
  induction h1 generalizing m with
  | done t r hr =>
    cases h2 with
    | done _ _ hr2 => rw [hr] at hr2; cases hr2; exact ⟨rfl, rfl⟩
    | step _ _ _ _ hn _ _ => rw [hr] at hn; cases hn
  | step t t1 n r hn hs h1 ih =>
    cases h2 with
    | done _ _ hr2 => rw [hr2] at hn; cases hn
    | step _ t1b _ _ _ hsb h2b =>
      rw [hs] at hsb
      cases hsb
      obtain ⟨he, hn⟩ := ih _ h2b
      exact ⟨he, by omega⟩

theorem resolvesIn_of_result (t : ParserTask) (r r2 : Result)
    (hr : t.result = some r2) (n : Nat) (h : ResolvesIn t n r) : r2 = r ∧ n = 0 := by
  cases h with
  | done _ _ hr2 => rw [hr] at hr2; cases hr2; exact ⟨rfl, rfl⟩
  | step _ _ _ _ hn _ _ => rw [hr] at hn; cases hn

theorem steps_resolvesIn (t t1 : ParserTask) (m k : Nat) (r : Result)
    (hs : Steps t m t1) (h : ResolvesIn t1 k r) : ResolvesIn t (m + k) r := by
  induction hs with
  | refl t => simpa using h
  | step t ta n t2 hn hstep hrest ih =>
    have : ResolvesIn ta (n + k) r := ih h
    have := ResolvesIn.step t ta (n + k) r hn hstep this
    simpa [Nat.add_right_comm] using this

theorem converges_step (t t2 : ParserTask) (r : Result)
    (hn : t.result = none) (hs : t.step = some t2) (h : Converges t2 r) :
    Converges t r := by
  obtain ⟨n, h⟩ := h
  exact ⟨n + 1, ResolvesIn.step t t2 n r hn hs h⟩

theorem converges_shift (t t2 : ParserTask) (r : Result)
    (hs : t.step = some t2) (h : Converges t r) : Converges t2 r := by
  obtain ⟨n, h⟩ := h
  cases n with
  | zero =>
    have hr := resolvesIn_zero t r h
    have := step_frozen t r hr
    rw [this] at hs
    cases hs
    exact ⟨0, h⟩
  | succ n => exact ⟨n, resolvesIn_succ_step t t2 n r h hs⟩

theorem converges_det (t : ParserTask) (r r2 : Result)
    (h1 : Converges t r) (h2 : Converges t r2) : r = r2 := by
  obtain ⟨n, h1⟩ := h1
  obtain ⟨m, h2⟩ := h2
  exact (resolvesIn_det t n m r r2 h1 h2).1

/-- Along any driven run of a task, the first stored result is the result
the task converges to. -/
theorem stepN_result_converged (t : ParserTask) (r : Result) (n : Nat)
    (t2 : ParserTask) (r2 : Result) (hc : Converges t r)
    (hn : stepN n t = some t2) (hr : t2.result = some r2) : r2 = r := by
  obtain ⟨k, hk⟩ := hc
  induction n generalizing t k with
  | zero =>
    cases hn
    exact (resolvesIn_of_result t2 r r2 hr k hk).1
  | succ n ih =>
    simp only [stepN] at hn
    cases hs : ParserTask.step t with
    | none => rw [hs] at hn; cases hn
    | some t1 =>
      rw [hs] at hn
      obtain ⟨k2, hk2⟩ := converges_shift t t1 r hs ⟨k, hk⟩
      exact ih t1 hn k2 hk2

theorem stepAll_iff_forall2 (cs cs2 : List ParserTask) :
    stepAll cs = some cs2 ↔
      List.Forall₂ (fun c c2 => c.step = some c2) cs cs2 := by
  constructor
  · intro h
    induction cs generalizing cs2 with
    | nil =>
      simp [stepAll] at h
      subst h
      exact List.Forall₂.nil
    | cons c cs ih =>
      simp only [stepAll] at h
      cases hs : ParserTask.step c with
      | none => rw [hs] at h; simp at h
      | some c2 =>
        rw [hs] at h
        cases hrest : stepAll cs with
        | none => rw [hrest] at h; simp at h
        | some cs3 =>
          rw [hrest] at h
          simp at h
          subst h
          exact List.Forall₂.cons hs (ih cs3 hrest)
  · intro h
    induction h with
    | nil => simp [stepAll]
    | cons hstep hrest ih => simp [stepAll, hstep, ih]

theorem mkTasks_iff_forall2 (ps : List PExpr) (input : Str) (cs : List ParserTask) :
    mkTasks ps input = some cs ↔
      List.Forall₂ (fun p c => mkTask p input = some c) ps cs := by
  constructor
  · intro h
    induction ps generalizing cs with
    | nil =>
      simp [mkTasks] at h
      subst h
      exact List.Forall₂.nil
    | cons p ps ih =>
      simp only [mkTasks] at h
      cases hm : mkTask p input with
      | none => rw [hm] at h; simp at h
      | some c =>
        rw [hm] at h
        cases hrest : mkTasks ps input with
        | none => rw [hrest] at h; simp at h
        | some cs3 =>
          rw [hrest] at h
          simp at h
          subst h
          exact List.Forall₂.cons hm (ih cs3 hrest)
  · intro h
    induction h with
    | nil => simp [mkTasks]
    | cons hmk hrest ih => simp [mkTasks, hmk, ih]

theorem firstSuccess_eq_firstRes (cs : List ParserTask) (rs : List Result)
    (h : List.Forall₂ (fun c r => c.result = some r) cs rs) :
    firstSuccess cs = firstRes rs := by
  induction h with
  | nil => rfl
  | cons hr hrest ih =>
    rename_i c r cs2 rs2
    cases r with
    | success v rem => simp [firstSuccess, firstRes, hr]
    | failure => simp [firstSuccess, firstRes, hr, ih]

theorem firstRes_map_denote (ps : List PExpr) (input : Str) :
    firstRes (ps.map (fun p => denote p input)) = denoteAlt ps input := by
  induction ps with
  | nil => simp [firstRes, denoteAlt]
  | cons p ps ih =>
    simp only [List.map, denoteAlt]
    cases h : denote p input with
    | success v rem => simp [firstRes, h]
    | failure => simp [firstRes, h, ih]

theorem wfL_iff (ps : List PExpr) : wfL ps = true ↔ ∀ p ∈ ps, wfE p = true := by
  induction ps with
  | nil => simp [wfL]
  | cons p ps ih => simp [wfL, ih]

theorem wfE_alt (ps : List PExpr) : wfE (.alt ps) = wfL ps := by simp [wfE]

theorem wfE_seq (ps : List PExpr) :
    wfE (.seq ps) = true ↔ ps ≠ [] ∧ ∀ p ∈ ps, wfE p = true := by
  simp [wfE, wfL_iff, List.isEmpty_iff]

theorem stepAll_of_resolved (cs : List ParserTask) (rs : List Result)
    (h : List.Forall₂ (fun c r => c.result = some r) cs rs) :
    stepAll cs = some cs := by
  induction h with
  | nil => simp [stepAll]
  | cons hr hrest ih =>
    rename_i c r cs2 rs2
    simp [stepAll, step_frozen c r hr, ih]

theorem all_done_of_resolved (cs : List ParserTask) (rs : List Result)
    (h : List.Forall₂ (fun c r => c.result = some r) cs rs) :
    cs.all (fun c => c.result.isSome) = true := by
  induction h with
  | nil => rfl
  | cons hr hrest ih =>
    rename_i c r cs2 rs2
    simp [hr, ih]

theorem resolved_results (N : Nat) (cs : List ParserTask) (rs : List Result)
    (hall : cs.all (fun c => c.result.isSome) = true)
    (h : List.Forall₂ (fun c r => ∃ k, k ≤ N ∧ ResolvesIn c k r) cs rs) :
    List.Forall₂ (fun c r => c.result = some r) cs rs := by
  induction h with
  | nil => exact List.Forall₂.nil
  | cons hr hrest ih =>
    rename_i c r cs2 rs2
    simp only [List.all_cons, Bool.and_eq_true] at hall
    obtain ⟨k, _, hk⟩ := hr
    obtain ⟨r0, hr0⟩ := Option.isSome_iff_exists.mp hall.1
    obtain ⟨he, _⟩ := resolvesIn_of_result c r r0 hr0 k hk
    exact List.Forall₂.cons (he ▸ hr0) (ih hall.2)

theorem step_round (N : Nat) (cs : List ParserTask) (rs : List Result)
    (h : List.Forall₂ (fun c r => ∃ k, k ≤ N + 1 ∧ ResolvesIn c k r) cs rs) :
    ∃ cs2, List.Forall₂ (fun c c2 => c.step = some c2) cs cs2 ∧
      List.Forall₂ (fun c2 r => ∃ k, k ≤ N ∧ ResolvesIn c2 k r) cs2 rs := by
  induction h with
  | nil => exact ⟨[], List.Forall₂.nil, List.Forall₂.nil⟩
  | cons hr hrest ih =>
    rename_i c r cs2 rs2
    obtain ⟨cs3, hstep3, hres3⟩ := ih
    obtain ⟨k, hk, hres⟩ := hr
    cases k with
    | zero =>
      have hr0 := resolvesIn_zero c r hres
      exact ⟨c :: cs3, List.Forall₂.cons (step_frozen c r hr0) hstep3,
        List.Forall₂.cons ⟨0, Nat.zero_le N, hres⟩ hres3⟩
    | succ m =>
      cases hres with
      | step _ c1 _ _ hn hs h1 =>
        exact ⟨c1 :: cs3, List.Forall₂.cons hs hstep3,
          List.Forall₂.cons ⟨m, by omega, h1⟩ hres3⟩

/-- Driving a `choice` task: once every child resolves within `N` steps the
outer task resolves to the first `Success` in declaration order. -/
theorem alt_conv (N : Nat) : ∀ (cs : List ParserTask) (rs : List Result),
    List.Forall₂ (fun c r => ∃ k, k ≤ N ∧ ResolvesIn c k r) cs rs →
    Converges (.altT cs none) (firstRes rs) := by
  induction N with
  | zero =>
    intro cs rs h
    have hres : List.Forall₂ (fun c r => c.result = some r) cs rs :=
      resolved_results 0 cs rs (by
        refine all_done_of_resolved cs rs ?_
        refine h.imp ?_
        intro c r hcr
        obtain ⟨k, hk, hres⟩ := hcr
        have : k = 0 := by omega
        subst this
        exact resolvesIn_zero c r hres) h
    have hstepAll := stepAll_of_resolved cs rs hres
    have hall := all_done_of_resolved cs rs hres
    have hstepeq : (ParserTask.altT cs none).step =
        some (.altT cs (some (firstSuccess cs))) := by
      simp [ParserTask.step, hstepAll, hall]
    refine ⟨1, ResolvesIn.step _ _ 0 _ rfl hstepeq (ResolvesIn.done _ _ ?_)⟩
    simp [ParserTask.result, firstSuccess_eq_firstRes cs rs hres]
  | succ N ih =>
    intro cs rs h
    obtain ⟨cs2, hstep2, hres2⟩ := step_round N cs rs h
    have hstepAll := (stepAll_iff_forall2 cs cs2).mpr hstep2
    cases hall : cs2.all (fun c => c.result.isSome) with
    | true =>
      have hres : List.Forall₂ (fun c r => c.result = some r) cs2 rs :=
        resolved_results N cs2 rs hall hres2
      have hstepeq : (ParserTask.altT cs none).step =
          some (.altT cs2 (some (firstSuccess cs2))) := by
        simp [ParserTask.step, hstepAll, hall]
      refine ⟨1, ResolvesIn.step _ _ 0 _ rfl hstepeq (ResolvesIn.done _ _ ?_)⟩
      simp [ParserTask.result, firstSuccess_eq_firstRes cs2 rs hres]
    | false =>
      have hstepeq : (ParserTask.altT cs none).step = some (.altT cs2 none) := by
        simp [ParserTask.step, hstepAll, hall]
      exact converges_step _ _ _ rfl hstepeq (ih cs2 rs hres2)

theorem resolvesIn_one (t t2 : ParserTask) (r : Result) (hs : t.step = some t2)
    (hn : t.result = none) (hr : t2.result = some r) : ResolvesIn t 1 r :=
  ResolvesIn.step t t2 0 r hn hs (ResolvesIn.done t2 r hr)

theorem steps_one (t t2 : ParserTask) (hs : t.step = some t2)
    (hn : t.result = none) : Steps t 1 t2 :=
  Steps.step t t2 0 t2 hn hs (Steps.refl t2)

/-- Driving a `sequence` task while its current child runs: the outer task
steps the child once per outer step; when the child resolves (after `k`
child steps, observed on outer step `max k 1`) the outer task fails with it,
succeeds on the last index, or advances to the next parser's task. -/
theorem seq_phase (ps : List PExpr) (acc : List Value) (rem : Str) (i : Nat)
    (cur : ParserTask) (k : Nat) (r : Result) (h : ResolvesIn cur k r) :
    (r = .failure → ResolvesIn (.seqT ps acc rem i cur none) (max k 1) .failure) ∧
    (∀ v rem2, r = .success v rem2 → i = ps.length - 1 →
      ResolvesIn (.seqT ps acc rem i cur none) (max k 1)
        (.success (.vlist (acc ++ [v])) rem2)) ∧
    (∀ v rem2 pn nxt, r = .success v rem2 → ¬ i = ps.length - 1 →
      ps[i+1]? = some pn → mkTask pn rem2 = some nxt →
      Steps (.seqT ps acc rem i cur none) (max k 1)
        (.seqT ps (acc ++ [v]) rem2 (i+1) nxt none)) := by
  induction h with
  | done t r hr =>
    refine ⟨?_, ?_, ?_⟩
    · intro hrf
      subst hrf
      have hstep : (ParserTask.seqT ps acc rem i t none).step =
          some (.seqT ps acc rem i t (some .failure)) := by
        simp [ParserTask.step, step_frozen t _ hr, hr]
      simpa using resolvesIn_one _ _ _ hstep rfl rfl
    · intro v rem2 hrs hi
      subst hrs
      subst hi
      have hstep : (ParserTask.seqT ps acc rem (ps.length - 1) t none).step =
          some (.seqT ps (acc ++ [v]) rem2 (ps.length - 1) t
            (some (.success (.vlist (acc ++ [v])) rem2))) := by
        simp [ParserTask.step, step_frozen t _ hr, hr]
      simpa using resolvesIn_one _ _ _ hstep rfl rfl
    · intro v rem2 pn nxt hrs hi hpn hnxt
      subst hrs
      have hstep : (ParserTask.seqT ps acc rem i t none).step =
          some (.seqT ps (acc ++ [v]) rem2 (i+1) nxt none) := by
        simp [ParserTask.step, step_frozen t _ hr, hr, hi, hpn, hnxt]
      simpa using steps_one _ _ hstep rfl
  | step t t1 n r hn hs h1 ih =>
    cases hcase : t1.result with
    | some r1 =>
      obtain ⟨he, hn0⟩ := resolvesIn_of_result t1 r r1 hcase n h1
      subst he
      subst hn0
      refine ⟨?_, ?_, ?_⟩
      · intro hrf
        subst hrf
        have hstep : (ParserTask.seqT ps acc rem i t none).step =
            some (.seqT ps acc rem i t1 (some .failure)) := by
          simp [ParserTask.step, hs, hcase]
        simpa using resolvesIn_one _ _ _ hstep rfl rfl
      · intro v rem2 hrs hi
        subst hrs
        subst hi
        have hstep : (ParserTask.seqT ps acc rem (ps.length - 1) t none).step =
            some (.seqT ps (acc ++ [v]) rem2 (ps.length - 1) t1
              (some (.success (.vlist (acc ++ [v])) rem2))) := by
          simp [ParserTask.step, hs, hcase]
        simpa using resolvesIn_one _ _ _ hstep rfl rfl
      · intro v rem2 pn nxt hrs hi hpn hnxt
        subst hrs
        have hstep : (ParserTask.seqT ps acc rem i t none).step =
            some (.seqT ps (acc ++ [v]) rem2 (i+1) nxt none) := by
          simp [ParserTask.step, hs, hcase, hi, hpn, hnxt]
        simpa using steps_one _ _ hstep rfl
    | none =>
      cases n with
      | zero =>
        exfalso
        have := resolvesIn_zero t1 r h1
        rw [hcase] at this
        cases this
      | succ m =>
        have hstep : (ParserTask.seqT ps acc rem i t none).step =
            some (.seqT ps acc rem i t1 none) := by
          simp [ParserTask.step, hs, hcase]
        have harith : max (m + 1 + 1) 1 = max (m + 1) 1 + 1 := by omega
        obtain ⟨ih1, ih2, ih3⟩ := ih
        refine ⟨?_, ?_, ?_⟩
        · intro hrf
          rw [harith]
          exact ResolvesIn.step _ _ _ _ rfl hstep (ih1 hrf)
        · intro v rem2 hrs hi
          rw [harith]
          exact ResolvesIn.step _ _ _ _ rfl hstep (ih2 v rem2 hrs hi)
        · intro v rem2 pn nxt hrs hi hpn hnxt
          rw [harith]
          exact Steps.step _ _ _ _ rfl hstep (ih3 v rem2 pn nxt hrs hi hpn hnxt)

/-- Driving a `sequence` task from index `i` onwards: it converges to the
sequential evaluation of the remaining parsers, prefixed by the accumulated
values. -/
theorem seq_conv (ps : List PExpr)
    (hps : ∀ p ∈ ps, ∀ J, ∃ t, mkTask p J = some t ∧ Converges t (denote p J)) :
    ∀ (fuel i : Nat) (hi : i < ps.length) (acc : List Value) (rem : Str)
      (cur : ParserTask),
      ps.length - i ≤ fuel →
      Converges cur (denote ps[i] rem) →
      Converges (.seqT ps acc rem i cur none)
        (match denoteSeq (ps.drop i) rem with
         | none => Result.failure
         | some (vs, remF) => Result.success (.vlist (acc ++ vs)) remF) := by
  intro fuel
  induction fuel with
  | zero =>
    intro i hi acc rem cur hfuel hcur
    omega
  | succ fuel ih =>
    intro i hi acc rem cur hfuel hcur
    obtain ⟨k, hk⟩ := hcur
    have hdrop := List.drop_eq_getElem_cons hi
    obtain ⟨h1, h2, h3⟩ := seq_phase ps acc rem i cur k (denote ps[i] rem) hk
    cases hd : denote ps[i] rem with
    | failure =>
      have hseq : denoteSeq (ps.drop i) rem = none := by
        rw [hdrop]
        simp only [denoteSeq, hd]
      rw [hseq]
      exact ⟨max k 1, h1 hd⟩
    | success v rem2 =>
      by_cases hlast : i = ps.length - 1
      · have hND : ps.drop (i+1) = [] :=
          List.drop_eq_nil_of_le (by omega)
        have hseq : denoteSeq (ps.drop i) rem = some ([v], rem2) := by
          rw [hdrop, hND]
          simp only [denoteSeq, hd]
        rw [hseq]
        exact ⟨max k 1, h2 v rem2 hd hlast⟩
      · have hi2 : i + 1 < ps.length := by omega
        have hpn : ps[i+1]? = some ps[i+1] := List.getElem?_eq_getElem hi2
        obtain ⟨nxt, hnxt, hconv⟩ := hps ps[i+1] (List.getElem_mem hi2) rem2
        have hsteps := h3 v rem2 ps[i+1] nxt hd hlast hpn hnxt
        have hrest := ih (i+1) hi2 (acc ++ [v]) rem2 nxt (by omega) hconv
        cases hrec : denoteSeq (ps.drop (i+1)) rem2 with
        | none =>
          have hseq : denoteSeq (ps.drop i) rem = none := by
            rw [hdrop]
            simp only [denoteSeq, hd, hrec]
          rw [hseq]
          rw [hrec] at hrest
          obtain ⟨m, hm⟩ := hrest
          exact ⟨max k 1 + m, steps_resolvesIn _ _ _ _ _ hsteps hm⟩
        | some p =>
          obtain ⟨vs, remF⟩ := p
          have hseq : denoteSeq (ps.drop i) rem = some (v :: vs, remF) := by
            rw [hdrop]
            simp only [denoteSeq, hd, hrec]
          rw [hseq]
          rw [hrec] at hrest
          have hrest2 : Converges (ParserTask.seqT ps (acc ++ [v]) rem2 (i + 1) nxt none)
              (Result.success (.vlist (acc ++ [v] ++ vs)) remF) := hrest
          have hacc : acc ++ [v] ++ vs = acc ++ v :: vs := by simp
          rw [hacc] at hrest2
          obtain ⟨m, hm⟩ := hrest2
          exact ⟨max k 1 + m, steps_resolvesIn _ _ _ _ _ hsteps hm⟩

theorem forall2_converges_bound (cs : List ParserTask) (rs : List Result)
    (h : List.Forall₂ (fun c r => Converges c r) cs rs) :
    ∃ N, List.Forall₂ (fun c r => ∃ k, k ≤ N ∧ ResolvesIn c k r) cs rs := by
  induction h with
  | nil => exact ⟨0, List.Forall₂.nil⟩
  | cons hcr hrest ih =>
    obtain ⟨k1, hk1⟩ := hcr
    obtain ⟨N, hN⟩ := ih
    refine ⟨max k1 N, List.Forall₂.cons ⟨k1, by omega, hk1⟩ ?_⟩
    refine hN.imp ?_
    intro a b hab
    obtain ⟨k, hk, hr⟩ := hab
    exact ⟨k, by omega, hr⟩

theorem mkTask_converges_aux : ∀ (n : Nat) (e : PExpr), sizeOf e ≤ n → wfE e = true →
    ∀ (input : Str), ∃ t, mkTask e input = some t ∧ Converges t (denote e input) := by
  intro n
  induction n using Nat.strong_induction_on with
  | _ n ih =>
    intro e hsize hwf input
    cases e with
    | str v =>
      refine ⟨.strT v input none, by simp [mkTask], ?_⟩
      refine ⟨1, resolvesIn_one _ (.strT v input (some (denote (.str v) input))) _ ?_ rfl rfl⟩
      by_cases hp : v.isPrefixOf input
      · simp [ParserTask.step, denote, hp]
      · simp [ParserTask.step, denote, hp]
    | pat p =>
      refine ⟨.patT p input none, by simp [mkTask], ?_⟩
      refine ⟨1, resolvesIn_one _ (.patT p input (some (denote (.pat p) input))) _ ?_ rfl rfl⟩
      cases hm : execFirst p input with
      | none => simp [ParserTask.step, denote, hm]
      | some m => simp [ParserTask.step, denote, hm]
    | alt ps =>
      have hwfL : ∀ p ∈ ps, wfE p = true := (wfL_iff ps).mp (by simpa [wfE] using hwf)
      have hsizeAlt : sizeOf (PExpr.alt ps) = 1 + sizeOf ps := by simp
      have hkids : ∀ (qs : List PExpr), (∀ q ∈ qs, q ∈ ps) →
          ∃ cs, mkTasks qs input = some cs ∧
            List.Forall₂ (fun c r => Converges c r) cs
              (qs.map (fun q => denote q input)) := by
        intro qs
        induction qs with
        | nil =>
          intro _
          exact ⟨[], by simp [mkTasks], List.Forall₂.nil⟩
        | cons q qs ihq =>
          intro hsub
          have hq : q ∈ ps := hsub q (by simp)
          have hsq : sizeOf q < sizeOf ps := List.sizeOf_lt_of_mem hq
          obtain ⟨t, hmt, hct⟩ :=
            ih (sizeOf q) (by omega) q (le_refl _) (hwfL q hq) input
          obtain ⟨cs, hmks, hcs⟩ := ihq (fun x hx => hsub x (by simp [hx]))
          exact ⟨t :: cs, by simp [mkTasks, hmt, hmks], List.Forall₂.cons hct hcs⟩
      obtain ⟨cs, hmks, hcs⟩ := hkids ps (fun q h => h)
      refine ⟨.altT cs none, by simp [mkTask, hmks], ?_⟩
      obtain ⟨N, hbound⟩ := forall2_converges_bound cs _ hcs
      have halt := alt_conv N cs _ hbound
      rw [firstRes_map_denote] at halt
      have hgoal : denote (.alt ps) input = denoteAlt ps input := by
        simp only [denote]
      rw [hgoal]
      exact halt
    | seq ps =>
      obtain ⟨hne, hwfm⟩ := (wfE_seq ps).mp hwf
      cases ps with
      | nil => exact absurd rfl hne
      | cons p0 rest =>
        have hsizeSeq : sizeOf (PExpr.seq (p0 :: rest)) = 1 + sizeOf (p0 :: rest) := by
          simp
        have hps : ∀ p ∈ (p0 :: rest), ∀ J,
            ∃ t, mkTask p J = some t ∧ Converges t (denote p J) := by
          intro p hp J
          have hsp : sizeOf p < sizeOf (p0 :: rest) := List.sizeOf_lt_of_mem hp
          exact ih (sizeOf p) (by omega) p (le_refl _) (hwfm p hp) J
        obtain ⟨cur, hmc, hcc⟩ := hps p0 (by simp) input
        refine ⟨.seqT (p0 :: rest) [] input 0 cur none, by simp [mkTask, hmc], ?_⟩
        have h0 : (0:Nat) < (p0 :: rest).length := by simp
        have hSC := seq_conv (p0 :: rest) hps ((p0 :: rest).length) 0 h0 [] input cur
          (by omega) (by simpa using hcc)
        rw [List.drop_zero] at hSC
        cases hds : denoteSeq (p0 :: rest) input with
        | none =>
          have hgoal : denote (.seq (p0 :: rest)) input = .failure := by
            simp only [denote, hds]
          rw [hgoal]
          rw [hds] at hSC
          exact hSC
        | some p =>
          obtain ⟨vs, remF⟩ := p
          have hgoal : denote (.seq (p0 :: rest)) input = .success (.vlist vs) remF := by
            simp only [denote, hds]
          rw [hgoal]
          rw [hds] at hSC
          exact hSC

/-- Main convergence theorem: for every well-formed parser and input, task
creation succeeds and driving the task with `step()` resolves it to the
reference result `denote`. -/
theorem mkTask_converges (e : PExpr) (hwf : wfE e = true) (input : Str) :
    ∃ t, mkTask e input = some t ∧ Converges t (denote e input) :=
  mkTask_converges_aux (sizeOf e) e (le_refl _) hwf input

theorem taskSuff_result (I : Str) (t : ParserTask) (h : TaskSuff I t) :
    resSuff I t.result := by
  cases h <;> assumption

theorem suff_drop (I J : Str) (n : Nat) (h : ∃ p, p ++ J = I) :
    ∃ q, q ++ J.drop n = I := by
  obtain ⟨p, hp⟩ := h
  refine ⟨p ++ J.take n, ?_⟩
  rw [List.append_assoc, List.take_append_drop]
  exact hp

theorem mkTask_suff_aux (I : Str) : ∀ (n : Nat) (e : PExpr) (J : Str)
    (t : ParserTask), sizeOf e ≤ n → (∃ p, p ++ J = I) →
    mkTask e J = some t → TaskSuff I t := by
  intro n
  induction n using Nat.strong_induction_on with
  | _ n ih =>
    intro e J t hsize hJ hmk
    cases e with
    | str v =>
      simp [mkTask] at hmk
      subst hmk
      exact TaskSuff.strT v J none hJ trivial
    | pat p =>
      simp [mkTask] at hmk
      subst hmk
      exact TaskSuff.patT p J none hJ trivial
    | alt ps =>
      cases hmks : mkTasks ps J with
      | none => rw [mkTask, hmks] at hmk; cases hmk
      | some cs =>
        rw [mkTask, hmks] at hmk
        simp at hmk
        subst hmk
        have hf2 := (mkTasks_iff_forall2 ps J cs).mp hmks
        refine TaskSuff.altT cs none ?_ trivial
        have hmem : ∀ (qs : List PExpr) (l : List ParserTask),
            List.Forall₂ (fun p c => mkTask p J = some c) qs l →
            (∀ q ∈ qs, q ∈ ps) → ∀ c ∈ l, TaskSuff I c := by
          intro qs
          intro l hf
          induction hf with
          | nil => intro _ c hc; cases hc
          | cons hqc hrest ihq =>
            rename_i q c qs2 cs2
            intro hsub c2 hc2
            cases hc2 with
            | head =>
              have hq : q ∈ ps := hsub q (by simp)
              have hsq : sizeOf q < sizeOf ps := List.sizeOf_lt_of_mem hq
              have hsizeAlt : sizeOf (PExpr.alt ps) = 1 + sizeOf ps := by simp
              exact ih (sizeOf q) (by omega) q J c (le_refl _) hJ hqc
            | tail _ hc2 =>
              exact ihq (fun x hx => hsub x (by simp [hx])) c2 hc2
        exact hmem ps cs hf2 (fun q h => h)
    | seq ps =>
      cases ps with
      | nil => rw [mkTask] at hmk; cases hmk
      | cons p0 rest =>
        cases hm0 : mkTask p0 J with
        | none => rw [mkTask, hm0] at hmk; cases hmk
        | some cur =>
          rw [mkTask, hm0] at hmk
          simp at hmk
          subst hmk
          have hsizeSeq : sizeOf (PExpr.seq (p0 :: rest)) = 1 + sizeOf (p0 :: rest) := by
            simp
          have hs0 : sizeOf p0 < sizeOf (p0 :: rest) := List.sizeOf_lt_of_mem (by simp)
          have hcur : TaskSuff I cur :=
            ih (sizeOf p0) (by omega) p0 J cur (le_refl _) hJ hm0
          exact TaskSuff.seqT _ [] J 0 cur none hJ hcur trivial

theorem mkTask_suff (I : Str) (e : PExpr) (t : ParserTask)
    (hmk : mkTask e I = some t) : TaskSuff I t :=
  mkTask_suff_aux I (sizeOf e) e I t (le_refl _) ⟨[], rfl⟩ hmk

theorem firstSuccess_resSuff (I : Str) (cs : List ParserTask)
    (h : ∀ c ∈ cs, TaskSuff I c) : resSuff I (some (firstSuccess cs)) := by
  induction cs with
  | nil => simp [firstSuccess, resSuff]
  | cons c cs ih =>
    have hres := taskSuff_result I c (h c (by simp))
    cases hc : c.result with
    | none =>
      simp only [firstSuccess, hc]
      exact ih (fun x hx => h x (by simp [hx]))
    | some r0 =>
      cases r0 with
      | success v rem =>
        rw [hc] at hres
        simp only [firstSuccess, hc]
        exact hres
      | failure =>
        simp only [firstSuccess, hc]
        exact ih (fun x hx => h x (by simp [hx]))

theorem step_pres_suff_aux (I : Str) : ∀ (n : Nat) (t t2 : ParserTask),
    sizeOf t ≤ n → TaskSuff I t → t.step = some t2 → TaskSuff I t2 := by
  intro n
  induction n using Nat.strong_induction_on with
  | _ n ih =>
    intro t t2 hsize hsuff hstep
    cases hsuff with
    | strT v inp r hinp hres =>
      cases r with
      | some r0 =>
        rw [step_frozen (ParserTask.strT v inp (some r0)) r0 rfl] at hstep
        injection hstep with h2
        subst h2
        exact TaskSuff.strT v inp (some r0) hinp hres
      | none =>
        have hcalc : (ParserTask.strT v inp none).step =
            some (.strT v inp (some (if v.isPrefixOf inp then
              Result.success (.vstr v) (inp.drop v.length) else .failure))) := by
          by_cases hp : v.isPrefixOf inp <;> simp [ParserTask.step, hp]
        rw [hcalc] at hstep
        injection hstep with h2
        subst h2
        refine TaskSuff.strT v inp _ hinp ?_
        by_cases hp : v.isPrefixOf inp
        · simp only [hp, if_true]
          exact suff_drop I inp v.length hinp
        · simp only [hp, if_false]
          trivial
    | patT p inp r hinp hres =>
      cases r with
      | some r0 =>
        rw [step_frozen (ParserTask.patT p inp (some r0)) r0 rfl] at hstep
        injection hstep with h2
        subst h2
        exact TaskSuff.patT p inp (some r0) hinp hres
      | none =>
        cases hm : execFirst p inp with
        | none =>
          have hcalc : (ParserTask.patT p inp none).step =
              some (.patT p inp (some .failure)) := by
            simp [ParserTask.step, hm]
          rw [hcalc] at hstep
          injection hstep with h2
          subst h2
          exact TaskSuff.patT p inp _ hinp trivial
        | some m =>
          have hcalc : (ParserTask.patT p inp none).step =
              some (.patT p inp (some (.success (.vstr m) (inp.drop m.length)))) := by
            simp [ParserTask.step, hm]
          rw [hcalc] at hstep
          injection hstep with h2
          subst h2
          exact TaskSuff.patT p inp _ hinp (suff_drop I inp m.length hinp)
    | altT cs r hcs hres =>
      cases r with
      | some r0 =>
        rw [step_frozen (ParserTask.altT cs (some r0)) r0 rfl] at hstep
        injection hstep with h2
        subst h2
        exact TaskSuff.altT cs (some r0) hcs hres
      | none =>
        have hstep2 := hstep
        simp only [ParserTask.step, Option.isSome_none, Bool.false_eq_true,
          if_false] at hstep2
        have hA := ParserTask.altT.sizeOf_spec cs (none : Option Result)
        cases hsa : stepAll cs with
        | none =>
          simp only [hsa] at hstep2
          simp at hstep2
        | some cs2 =>
          simp only [hsa] at hstep2
          have hf2 := (stepAll_iff_forall2 cs cs2).mp hsa
          have hcs2 : ∀ c2 ∈ cs2, TaskSuff I c2 := by
            have hmem : ∀ (l l2 : List ParserTask),
                List.Forall₂ (fun c c2 => c.step = some c2) l l2 →
                (∀ c ∈ l, c ∈ cs) → ∀ c2 ∈ l2, TaskSuff I c2 := by
              intro l l2 hf
              induction hf with
              | nil =>
                intro _ c2 hc2
                cases hc2
              | cons hcc hrest ihl =>
                rename_i c ch l3 l4
                intro hsub x hx
                cases hx with
                | head =>
                  have hc : c ∈ cs := hsub c (by simp)
                  have hsc : sizeOf c < sizeOf cs := List.sizeOf_lt_of_mem hc
                  exact ih (sizeOf c) (by omega) c ch (le_refl _) (hcs c hc) hcc
                | tail _ hx =>
                  exact ihl (fun y hy => hsub y (by simp [hy])) x hx
            exact hmem cs cs2 hf2 (fun q h => h)
          cases hall : cs2.all (fun c => c.result.isSome) with
          | true =>
            simp [hall] at hstep2
            subst hstep2
            exact TaskSuff.altT cs2 _ hcs2 (firstSuccess_resSuff I cs2 hcs2)
          | false =>
            simp [hall] at hstep2
            subst hstep2
            exact TaskSuff.altT cs2 none hcs2 trivial
    | seqT ps acc rem i cur r hrem hcur hres =>
      cases r with
      | some r0 =>
        rw [step_frozen (ParserTask.seqT ps acc rem i cur (some r0)) r0 rfl] at hstep
        injection hstep with h2
        subst h2
        exact TaskSuff.seqT ps acc rem i cur (some r0) hrem hcur hres
      | none =>
        have hstep2 := hstep
        simp only [ParserTask.step, Option.isSome_none, Bool.false_eq_true,
          if_false] at hstep2
        have hA := ParserTask.seqT.sizeOf_spec ps acc rem i cur (none : Option Result)
        cases hsc : cur.step with
        | none =>
          simp only [hsc] at hstep2
          simp at hstep2
        | some cur2 =>
          simp only [hsc] at hstep2
          have hszc : sizeOf cur < sizeOf (ParserTask.seqT ps acc rem i cur
              (none : Option Result)) := by omega
          have hcur2 : TaskSuff I cur2 :=
            ih (sizeOf cur) (by omega) cur cur2 (le_refl _) hcur hsc
          cases hr2 : cur2.result with
          | none =>
            simp only [hr2] at hstep2
            simp at hstep2
            subst hstep2
            exact TaskSuff.seqT ps acc rem i cur2 none hrem hcur2 trivial
          | some r2 =>
            simp only [hr2] at hstep2
            cases r2 with
            | failure =>
              simp at hstep2
              subst hstep2
              exact TaskSuff.seqT ps acc rem i cur2 (some .failure) hrem hcur2 trivial
            | success v rem2 =>
              have hrem2 : ∃ p, p ++ rem2 = I := by
                have hx := taskSuff_result I cur2 hcur2
                rw [hr2] at hx
                exact hx
              by_cases hlast : i = ps.length - 1
              · have hcalc : (ParserTask.seqT ps acc rem i cur none).step =
                    some (.seqT ps (acc ++ [v]) rem2 i cur2
                      (some (.success (.vlist (acc ++ [v])) rem2))) := by
                  simp [ParserTask.step, hsc, hr2, hlast]
                rw [hcalc] at hstep
                injection hstep with h2
                subst h2
                exact TaskSuff.seqT ps (acc ++ [v]) rem2 i cur2 _ hrem2 hcur2 hrem2
              · cases hpn : ps[i+1]? with
                | none =>
                  have hcalc : (ParserTask.seqT ps acc rem i cur none).step = none := by
                    simp [ParserTask.step, hsc, hr2, hlast, hpn]
                  rw [hcalc] at hstep
                  cases hstep
                | some pn =>
                  cases hnx : mkTask pn rem2 with
                  | none =>
                    have hcalc : (ParserTask.seqT ps acc rem i cur none).step = none := by
                      simp [ParserTask.step, hsc, hr2, hlast, hpn, hnx]
                    rw [hcalc] at hstep
                    cases hstep
                  | some nxt =>
                    have hcalc : (ParserTask.seqT ps acc rem i cur none).step =
                        some (.seqT ps (acc ++ [v]) rem2 (i+1) nxt none) := by
                      simp [ParserTask.step, hsc, hr2, hlast, hpn, hnx]
                    rw [hcalc] at hstep
                    injection hstep with h2
                    subst h2
                    have hnxtS : TaskSuff I nxt :=
                      mkTask_suff_aux I (sizeOf pn) pn rem2 nxt (le_refl _) hrem2 hnx
                    exact TaskSuff.seqT ps (acc ++ [v]) rem2 (i+1) nxt none
                      hrem2 hnxtS trivial

theorem stepN_pres_suff (I : Str) (k : Nat) : ∀ (t t2 : ParserTask),
    TaskSuff I t → stepN k t = some t2 → TaskSuff I t2 := by
  induction k with
  | zero =>
    intro t t2 hsuff h
    cases h
    exact hsuff
  | succ k ihk =>
    intro t t2 hsuff h
    simp only [stepN] at h
    cases hs : t.step with
    | none => rw [hs] at h; cases h
    | some t1 =>
      rw [hs] at h
      exact ihk t1 t2 (step_pres_suff_aux I (sizeOf t) t t1 (le_refl _) hsuff hs) h

theorem denoteSeq_cons_none (p : PExpr) (ps : List PExpr) (I : Str) (v : Value)
    (rem2 : Str) (hd : denote p I = .success v rem2)
    (h : denoteSeq (p :: ps) I = none) : denoteSeq ps rem2 = none := by
  simp only [denoteSeq, hd] at h
  cases hrec : denoteSeq ps rem2 with
  | none => rfl
  | some pr =>
    obtain ⟨vs, remF⟩ := pr
    rw [hrec] at h
    simp at h

theorem failIdx_lt (ps : List PExpr) : ∀ (I : Str), denoteSeq ps I = none →
    failIdx ps I < ps.length := by
  induction ps with
  | nil =>
    intro I h
    simp [denoteSeq] at h
  | cons p ps ih =>
    intro I h
    cases hd : denote p I with
    | failure => simp [failIdx, hd]
    | success v rem2 =>
      have h2 := denoteSeq_cons_none p ps I v rem2 hd h
      have := ih rem2 h2
      simp only [failIdx, hd, List.length_cons]
      omega

theorem remAt_denote (i : Nat) : ∀ (ps : List PExpr) (I : Str),
    i < failIdx ps I →
    ∃ v, denote (ps.getD i (.str [])) (remAt ps I i) =
      .success v (remAt ps I (i+1)) := by
  induction i with
  | zero =>
    intro ps I h
    cases ps with
    | nil => simp [failIdx] at h
    | cons p ps =>
      cases hd : denote p I with
      | failure => simp [failIdx, hd] at h
      | success v rem2 =>
        refine ⟨v, ?_⟩
        simp [remAt, hd]
  | succ i ih =>
    intro ps I h
    cases ps with
    | nil => simp [failIdx] at h
    | cons p ps =>
      cases hd : denote p I with
      | failure => simp [failIdx, hd] at h
      | success v rem2 =>
        have h2 : i < failIdx ps rem2 := by
          simp only [failIdx, hd] at h
          omega
        obtain ⟨v2, hv2⟩ := ih ps rem2 h2
        refine ⟨v2, ?_⟩
        simpa [remAt, hd] using hv2

theorem failIdx_denote_fail (ps : List PExpr) : ∀ (I : Str),
    denoteSeq ps I = none →
    denote (ps.getD (failIdx ps I) (.str [])) (remAt ps I (failIdx ps I)) =
      .failure := by
  induction ps with
  | nil =>
    intro I h
    simp [denoteSeq] at h
  | cons p ps ih =>
    intro I h
    cases hd : denote p I with
    | failure => simp [failIdx, remAt, hd]
    | success v rem2 =>
      have h2 := denoteSeq_cons_none p ps I v rem2 hd h
      simpa [failIdx, remAt, hd] using ih rem2 h2

/-- One-step preservation of the `sequence` scheduling invariant: along any
run on an input whose sequential evaluation fails, the task's index stays
bounded by the index of the first failing parser, so no later parser is
ever instantiated or stepped. -/
theorem seqInv_step (ps : List PExpr) (I : Str)
    (hwf : ∀ p ∈ ps, wfE p = true) (hF : denoteSeq ps I = none)
    (acc : List Value) (rem : Str) (i : Nat) (cur : ParserTask)
    (r : Option Result) (t2 : ParserTask)
    (hstep : (ParserTask.seqT ps acc rem i cur r).step = some t2)
    (hle : i ≤ failIdx ps I)
    (hinv : r = none → rem = remAt ps I i ∧ i < ps.length ∧
      Converges cur (denote (ps.getD i (.str [])) rem)) :
    ∃ acc2 rem2b i2 cur2 r2, t2 = .seqT ps acc2 rem2b i2 cur2 r2 ∧
      i2 ≤ failIdx ps I ∧
      (r2 = none → rem2b = remAt ps I i2 ∧ i2 < ps.length ∧
        Converges cur2 (denote (ps.getD i2 (.str [])) rem2b)) := by
  cases r with
  | some r0 =>
    rw [step_frozen (ParserTask.seqT ps acc rem i cur (some r0)) r0 rfl] at hstep
    injection hstep with h2
    subst h2
    exact ⟨acc, rem, i, cur, some r0, rfl, hle, fun h => Option.noConfusion h⟩
  | none =>
    obtain ⟨hrem, hilen, hconv⟩ := hinv rfl
    cases hsc : cur.step with
    | none =>
      have hcalc : (ParserTask.seqT ps acc rem i cur none).step = none := by
        simp [ParserTask.step, hsc]
      rw [hcalc] at hstep
      cases hstep
    | some cur2 =>
      have hconv2 : Converges cur2 (denote (ps.getD i (.str [])) rem) :=
        converges_shift cur cur2 _ hsc hconv
      cases hr2 : cur2.result with
      | none =>
        have hcalc : (ParserTask.seqT ps acc rem i cur none).step =
            some (.seqT ps acc rem i cur2 none) := by
          simp [ParserTask.step, hsc, hr2]
        rw [hcalc] at hstep
        injection hstep with h2
        subst h2
        exact ⟨acc, rem, i, cur2, none, rfl, hle, fun _ => ⟨hrem, hilen, hconv2⟩⟩
      | some r2 =>
        cases r2 with
        | failure =>
          have hcalc : (ParserTask.seqT ps acc rem i cur none).step =
              some (.seqT ps acc rem i cur2 (some .failure)) := by
            simp [ParserTask.step, hsc, hr2]
          rw [hcalc] at hstep
          injection hstep with h2
          subst h2
          exact ⟨acc, rem, i, cur2, some .failure, rfl, hle,
            fun h => Option.noConfusion h⟩
        | success v rem2 =>
          have hdeq : denote (ps.getD i (.str [])) rem = .success v rem2 := by
            obtain ⟨k, hk⟩ := hconv2
            obtain ⟨he, _⟩ := resolvesIn_of_result cur2 _ _ hr2 k hk
            exact he.symm
          have hne : i ≠ failIdx ps I := by
            intro hEq
            have hfail := failIdx_denote_fail ps I hF
            rw [← hEq] at hfail
            rw [hrem] at hdeq
            rw [hdeq] at hfail
            cases hfail
          have hlt : i < failIdx ps I := by omega
          obtain ⟨v2, hv2⟩ := remAt_denote i ps I hlt
          rw [hrem] at hdeq
          rw [hdeq] at hv2
          injection hv2 with hveq hremeq
          have hfl := failIdx_lt ps I hF
          have hi1len : i + 1 < ps.length := by omega
          have hlast : ¬ (i = ps.length - 1) := by omega
          have hpn : ps[i+1]? = some ps[i+1] := List.getElem?_eq_getElem hi1len
          have hwfp : wfE ps[i+1] = true := hwf ps[i+1] (List.getElem_mem hi1len)
          obtain ⟨nxt, hnx, hcn⟩ := mkTask_converges ps[i+1] hwfp rem2
          have hcalc : (ParserTask.seqT ps acc rem i cur none).step =
              some (.seqT ps (acc ++ [v]) rem2 (i+1) nxt none) := by
            simp [ParserTask.step, hsc, hr2, hlast, hpn, hnx]
          rw [hcalc] at hstep
          injection hstep with h2
          subst h2
          refine ⟨acc ++ [v], rem2, i+1, nxt, none, rfl, by omega,
            fun _ => ⟨hremeq, hi1len, ?_⟩⟩
          rw [List.getD_eq_getElem ps (PExpr.str []) hi1len]
          exact hcn

/-- Reachability form of the `sequence` scheduling invariant. -/
theorem seqInv_reach (ps : List PExpr) (I : Str)
    (hwf : ∀ p ∈ ps, wfE p = true) (hF : denoteSeq ps I = none) :
    ∀ (n : Nat) (acc : List Value) (rem : Str) (i : Nat) (cur : ParserTask)
      (r : Option Result) (t2 : ParserTask),
      stepN n (.seqT ps acc rem i cur r) = some t2 →
      i ≤ failIdx ps I →
      (r = none → rem = remAt ps I i ∧ i < ps.length ∧
        Converges cur (denote (ps.getD i (.str [])) rem)) →
      seqIdx t2 ≤ failIdx ps I := by
  intro n
  induction n with
  | zero =>
    intro acc rem i cur r t2 h hle hinv
    cases h
    simpa [seqIdx] using hle
  | succ n ihn =>
    intro acc rem i cur r t2 h hle hinv
    simp only [stepN] at h
    cases hs : (ParserTask.seqT ps acc rem i cur r).step with
    | none => rw [hs] at h; cases h
    | some t1 =>
      rw [hs] at h
      obtain ⟨acc2, rem2b, i2, cur2, r2, ht1, hle2, hinv2⟩ :=
        seqInv_step ps I hwf hF acc rem i cur r t1 hs hle hinv
      subst ht1
      exact ihn acc2 rem2b i2 cur2 r2 t2 h hle2 hinv2

theorem firstSuccess_earliest : ∀ (cs : List ParserTask) (k : Nat)
    (c : ParserTask) (v : Value) (rem : Str), cs[k]? = some c →
    c.result = some (.success v rem) →
    (∀ j, j < k → ∀ cj, cs[j]? = some cj →
      ∀ v2 rem2, cj.result ≠ some (.success v2 rem2)) →
    firstSuccess cs = .success v rem := by
  intro cs
  induction cs with
  | nil =>
    intro k c v rem hk
    simp at hk
  | cons c0 cs ih =>
    intro k c v rem hk hc hbefore
    cases k with
    | zero =>
      simp at hk
      subst hk
      simp [firstSuccess, hc]
    | succ k =>
      have h0 := hbefore 0 (by omega) c0 (by simp)
      cases hc0 : c0.result with
      | none => simp only [firstSuccess, hc0]
                exact ih k c v rem (by simpa using hk) hc
                  (fun j hj cj hcj => hbefore (j+1) (by omega) cj (by simpa using hcj))
      | some r0 =>
        cases r0 with
        | success v0 rem0 => exact absurd hc0 (h0 v0 rem0)
        | failure =>
          simp only [firstSuccess, hc0]
          exact ih k c v rem (by simpa using hk) hc
            (fun j hj cj hcj => hbefore (j+1) (by omega) cj (by simpa using hcj))

/-- C1: the claim (and the spec's Scenario E) state that `sequence([])` must
resolve to `Success([], I)` on the first `step()` call.  The code instead
evaluates `parsers[0]` — which is `undefined` for an empty list — and calls
it at task-creation time (parser3.ts line 139), throwing a `TypeError`
before any `step()` can run: task creation yields no task (`none`), while
the reference semantics of the spec gives `Success([], I)`. -/
theorem claim1_seq_empty_crashes (I : Str) :
    mkTask (.seq []) I = none ∧ denote (.seq []) I = .success (.vlist []) I := by
  constructor
  · simp [mkTask]
  · simp [denote, denoteSeq]

/-- C2 counterexample: for `choice([str("a"), sequence([str("a"), str("b")])])`
on input `"ab"`, task creation yields the choice task with its two child
tasks, and after the first outer `step()` the first child has resolved to
`Success("a", "b")` while the outer task's result is still `none` — the
code waits for `tasks.every(t => t.done)` (parser3.ts line 118) instead of
resolving as soon as one child has succeeded, refuting the claim. -/
theorem claim2_counterexample :
    mkTask (.alt [.str ['a'], .seq [.str ['a'], .str ['b']]]) ['a','b'] =
      some (.altT [.strT ['a'] ['a','b'] none,
        .seqT [.str ['a'], .str ['b']] [] ['a','b'] 0 (.strT ['a'] ['a','b'] none) none]
        none) ∧
    (ParserTask.altT [.strT ['a'] ['a','b'] none,
        .seqT [.str ['a'], .str ['b']] [] ['a','b'] 0 (.strT ['a'] ['a','b'] none) none]
        none).step =
      some (.altT [.strT ['a'] ['a','b'] (some (.success (.vstr ['a']) ['b'])),
        .seqT [.str ['a'], .str ['b']] [.vstr ['a']] ['b'] 1 (.strT ['b'] ['b'] none) none]
        none) ∧
    (ParserTask.altT [.strT ['a'] ['a','b'] (some (.success (.vstr ['a']) ['b'])),
        .seqT [.str ['a'], .str ['b']] [.vstr ['a']] ['b'] 1 (.strT ['b'] ['b'] none) none]
        none).result = none ∧
    firstChildResult (.altT [.strT ['a'] ['a','b'] (some (.success (.vstr ['a']) ['b'])),
        .seqT [.str ['a'], .str ['b']] [.vstr ['a']] ['b'] 1 (.strT ['b'] ['b'] none) none]
        none) = some (.success (.vstr ['a']) ['b']) := by
  refine ⟨?_, ?_, rfl, rfl⟩
  · simp [mkTask, mkTasks]
  · simp [ParserTask.step, stepAll, mkTask, ParserTask.result, firstSuccess]

/-- C2 amended: per outer `step()` of an unresolved `choice` task, every
child is stepped once; if afterwards ALL children are resolved, the outer
task resolves on that same call to the Success of the earliest-declared
successful child (Failure if none succeeded); if any child is still
unresolved, the outer task stays unresolved on that call even when some
child has already resolved to Success. -/
theorem claim2_amended (cs cs2 : List ParserTask)
    (hstep : stepAll cs = some cs2) :
    (cs2.all (fun c => c.result.isSome) = true →
      (ParserTask.altT cs none).step =
        some (.altT cs2 (some (firstSuccess cs2))) ∧
      ∀ (k : Nat) (c : ParserTask) (v : Value) (rem : Str),
        cs2[k]? = some c → c.result = some (.success v rem) →
        (∀ j, j < k → ∀ cj, cs2[j]? = some cj →
          ∀ v2 rem2, cj.result ≠ some (.success v2 rem2)) →
        firstSuccess cs2 = .success v rem) ∧
    (cs2.all (fun c => c.result.isSome) = false →
      (ParserTask.altT cs none).step = some (.altT cs2 none)) := by
  constructor
  · intro hall
    constructor
    · simp [ParserTask.step, hstep, hall]
    · intro k c v rem hk hc hbefore
      exact firstSuccess_earliest cs2 k c v rem hk hc hbefore
  · intro hall
    simp [ParserTask.step, hstep, hall]

theorem claim2_amended_witness :
    (ParserTask.altT [ParserTask.strT ['a'] ['a'] none] none).step =
      some (.altT [ParserTask.strT ['a'] ['a']
          (some (.success (.vstr ['a']) []))]
        (some (firstSuccess [ParserTask.strT ['a'] ['a']
          (some (.success (.vstr ['a']) []))]))) :=
  ((claim2_amended [ParserTask.strT ['a'] ['a'] none]
      [ParserTask.strT ['a'] ['a'] (some (.success (.vstr ['a']) []))]
      (by simp [stepAll, ParserTask.step])).1
    (by simp [ParserTask.result])).1

/-- C3: the claim states the pattern primitive is anchored at position 0,
so a match beginning past position 0 never yields Success.  The code
(parser.ts lines 279-290) calls the unanchored `pattern.exec(input)` and
trims `match[0].length` characters from the FRONT of the input: for the
literal pattern `"b"` on input `"ab"` the match starts at position 1, yet
the task resolves to `Success("b", "b")` — the matched text is not a prefix
of the input and the unmatched `"a"` is silently consumed, contradicting
the claim (and the spec's own §4.3 anchoring requirement). -/
theorem claim3_pattern_unanchored :
    (ParserTask.patT ['b'] ['a','b'] none).step =
      some (.patT ['b'] ['a','b'] (some (.success (.vstr ['b']) ['b']))) ∧
    execFirst ['b'] ['a','b'] = some ['b'] ∧
    List.isPrefixOf ['b'] ['a','b'] = false := by
  refine ⟨?_, ?_, by decide⟩
  · simp [ParserTask.step, execFirst]
  · simp [execFirst]

/-- C6: resolution is one-shot and frozen — a resolved task reports `done`,
every further `step()` returns the very same state without running the
handler (the state, in particular the stored result, never changes), for
any number of further steps. -/
theorem claim6_frozen (t : ParserTask) (r : Result) (h : t.result = some r) :
    t.done = true ∧ t.step = some t ∧ (∀ n, stepN n t = some t) ∧
      t.result = some r :=
  ⟨by simp [ParserTask.done, h], step_frozen t r h, stepN_frozen t r h, h⟩

theorem claim6_witness :
    (ParserTask.strT [] [] (some .failure)).done = true ∧
    (ParserTask.strT [] [] (some .failure)).step =
      some (.strT [] [] (some .failure)) ∧
    (∀ n, stepN n (ParserTask.strT [] [] (some .failure)) =
      some (.strT [] [] (some .failure))) ∧
    (ParserTask.strT [] [] (some .failure)).result = some .failure :=
  claim6_frozen (.strT [] [] (some .failure)) .failure rfl

/-- C8: `choice([])` — the task is created with no children, and on its
first `step()` the vacuous `tasks.every` check passes and the
declaration-order scan finds no Success, so the task resolves to Failure
immediately (parser3.ts lines 113-130). -/
theorem claim8_choice_empty (I : Str) :
    mkTask (.alt []) I = some (.altT [] none) ∧
    (ParserTask.altT [] none).result = none ∧
    (ParserTask.altT [] none).step = some (.altT [] (some .failure)) := by
  refine ⟨by simp [mkTask, mkTasks], rfl, ?_⟩
  simp [ParserTask.step, stepAll, firstSuccess]

/-- C9: suffix invariant — for every parser built from the combinators and
every input `I`, whenever the task created for `(parser, I)` has resolved
to a Success after any number of `step()` calls, the stored `remaining` is
a suffix of `I`. -/
theorem claim9_remaining_suffix (e : PExpr) (I : Str) (t t2 : ParserTask)
    (n : Nat) (v : Value) (rem : Str) (hmk : mkTask e I = some t)
    (hrun : stepN n t = some t2) (hres : t2.result = some (.success v rem)) :
    ∃ p, p ++ rem = I := by
  have hsuff := stepN_pres_suff I n t t2 (mkTask_suff I e t hmk) hrun
  have hrs := taskSuff_result I t2 hsuff
  rw [hres] at hrs
  exact hrs

theorem claim9_witness : ∃ p, p ++ ([] : Str) = ['a'] :=
  claim9_remaining_suffix (.str ['a']) ['a'] (.strT ['a'] ['a'] none)
    (.strT ['a'] ['a'] (some (.success (.vstr ['a']) []))) 1 (.vstr ['a']) []
    (by simp [mkTask]) (by simp [stepN, ParserTask.step]) rfl

/-- C10: the empty literal — `""` is a prefix of every input and
`input.substr(0)` is the whole input, so the task of `str("")` on any `I`
is unresolved at creation and resolves on its first `step()` to
`Success("", I)`, consuming nothing; it never fails. -/
theorem claim10_str_empty (I : Str) :
    mkTask (.str []) I = some (.strT [] I none) ∧
    (ParserTask.strT [] I none).result = none ∧
    (ParserTask.strT [] I none).step =
      some (.strT [] I (some (.success (.vstr []) I))) := by
  refine ⟨by simp [mkTask], rfl, ?_⟩
  simp [ParserTask.step]

theorem isPrefixOf_exists (v : Str) : ∀ (I : Str),
    v.isPrefixOf I = true ↔ ∃ rest, v ++ rest = I := by
  induction v with
  | nil =>
    intro I
    simp
  | cons c v ih =>
    intro I
    cases I with
    | nil => simp [List.isPrefixOf]
    | cons c2 I2 =>
      simp [List.isPrefixOf, ih]

/-- C4: `str(L)` on input `I` — the task is unresolved at creation, and its
single handler invocation on the first `step()` resolves it: to
`Success(L, I with the prefix L removed)` when `I` starts with `L`
(`input.startsWith(value)` / `input.substr(value.length)`, parser3.ts lines
96-99), and to Failure otherwise.  The last two conjuncts identify
`startsWith` with having `L` as a prefix and `substr(L.length)` with
removing exactly that prefix. -/
theorem claim4_str_one_step (v I : Str) :
    mkTask (.str v) I = some (.strT v I none) ∧
    (ParserTask.strT v I none).result = none ∧
    (ParserTask.strT v I none).step =
      some (.strT v I (some (if v.isPrefixOf I then
        .success (.vstr v) (I.drop v.length) else .failure))) ∧
    (v.isPrefixOf I = true ↔ ∃ rest, v ++ rest = I) ∧
    (∀ rest, v ++ rest = I → I.drop v.length = rest) := by
  refine ⟨by simp [mkTask], rfl, ?_, isPrefixOf_exists v I, ?_⟩
  · by_cases hp : v.isPrefixOf I <;> simp [ParserTask.step, hp]
  · intro rest hrest
    rw [← hrest]
    exact List.drop_left v rest

/-- C5: for a non-empty well-formed parser list, the `sequence` task exists
and resolves to Success exactly when every parser succeeds in turn against
the progressively reduced remaining input (`denoteSeq`), with value the
ordered list of the children's values and remaining the last child's
remaining; it resolves to Failure exactly when some parser fails, and in
that case the task's index never exceeds the first failing parser's index,
so no later parser is ever given a task or stepped. -/
theorem claim5_sequence_correct (ps : List PExpr) (I : Str) (hne : ps ≠ [])
    (hwf : ∀ p ∈ ps, wfE p = true) :
    ∃ t, mkTask (.seq ps) I = some t ∧
      (∀ vs remF, Converges t (.success (.vlist vs) remF) ↔
        denoteSeq ps I = some (vs, remF)) ∧
      (∀ v remF, Converges t (.success v remF) → ∃ vs, v = .vlist vs) ∧
      (Converges t .failure ↔ denoteSeq ps I = none) ∧
      (denoteSeq ps I = none →
        ∀ (n : Nat) (t2 : ParserTask), stepN n t = some t2 →
          seqIdx t2 ≤ failIdx ps I) := by
  have hwfe : wfE (.seq ps) = true := (wfE_seq ps).mpr ⟨hne, hwf⟩
  obtain ⟨t, hmk, hconv⟩ := mkTask_converges (.seq ps) hwfe I
  refine ⟨t, hmk, ?_, ?_, ?_, ?_⟩
  · intro vs remF
    constructor
    · intro hc
      have hEq := converges_det t _ _ hc hconv
      cases hds : denoteSeq ps I with
      | none =>
        have hden : denote (.seq ps) I = .failure := by
          simp only [denote, hds]
        rw [hden] at hEq
        cases hEq
      | some pr =>
        obtain ⟨vs2, remF2⟩ := pr
        have hden : denote (.seq ps) I = .success (.vlist vs2) remF2 := by
          simp only [denote, hds]
        rw [hden] at hEq
        injection hEq with h1 h2
        injection h1 with h1
        rw [h1, h2]
    · intro hds
      have hden : denote (.seq ps) I = .success (.vlist vs) remF := by
        simp only [denote, hds]
      rw [hden] at hconv
      exact hconv
  · intro v remF hc
    have hEq := converges_det t _ _ hc hconv
    cases hds : denoteSeq ps I with
    | none =>
      have hden : denote (.seq ps) I = .failure := by
        simp only [denote, hds]
      rw [hden] at hEq
      cases hEq
    | some pr =>
      obtain ⟨vs2, remF2⟩ := pr
      have hden : denote (.seq ps) I = .success (.vlist vs2) remF2 := by
        simp only [denote, hds]
      rw [hden] at hEq
      injection hEq with h1 h2
      exact ⟨vs2, h1⟩
  · constructor
    · intro hc
      have hEq := converges_det t _ _ hc hconv
      cases hds : denoteSeq ps I with
      | none => rfl
      | some pr =>
        obtain ⟨vs2, remF2⟩ := pr
        have hden : denote (.seq ps) I = .success (.vlist vs2) remF2 := by
          simp only [denote, hds]
        rw [hden] at hEq
        cases hEq
    · intro hds
      have hden : denote (.seq ps) I = .failure := by
        simp only [denote, hds]
      rw [hden] at hconv
      exact hconv
  · intro hF n t2 hstepn
    cases ps with
    | nil => exact absurd rfl hne
    | cons p0 rest =>
      cases hm0 : mkTask p0 I with
      | none =>
        rw [mkTask, hm0] at hmk
        cases hmk
      | some cur0 =>
        rw [mkTask, hm0] at hmk
        simp at hmk
        subst hmk
        refine seqInv_reach (p0 :: rest) I hwf hF n [] I 0 cur0 none t2 hstepn
          (by omega) ?_
        intro _
        obtain ⟨t0b, hmk0, hc0⟩ := mkTask_converges p0 (hwf p0 (by simp)) I
        rw [hm0] at hmk0
        injection hmk0 with hteq
        subst hteq
        exact ⟨rfl, by simp, by simpa [List.getD] using hc0⟩

theorem claim5_witness :
    ∃ t, mkTask (.seq [.str ['a']]) ['a'] = some t ∧
      (∀ vs remF, Converges t (.success (.vlist vs) remF) ↔
        denoteSeq [.str ['a']] ['a'] = some (vs, remF)) ∧
      (∀ v remF, Converges t (.success v remF) → ∃ vs, v = .vlist vs) ∧
      (Converges t .failure ↔ denoteSeq [.str ['a']] ['a'] = none) ∧
      (denoteSeq [.str ['a']] ['a'] = none →
        ∀ (n : Nat) (t2 : ParserTask), stepN n t = some t2 →
          seqIdx t2 ≤ failIdx [.str ['a']] ['a']) :=
  claim5_sequence_correct [.str ['a']] ['a'] (by simp)
    (by
      intro p hp
      simp at hp
      subst hp
      simp [wfE])

/-- C7: the memoization of `memoize` (used for `str`, `sequence`, `choice`
at construction time, and per-parser for task creation): a call whose
argument list is deeply equal to an earlier call's returns the stored entry
itself — the identical Parser/Task object — without running the wrapped
constructor again (the `Bool` is `false`) and without touching the table;
the table only ever grows by appending (`memo.push`): the old table is a
prefix of the new one and no entry is removed, and the returned value is a
stored entry of the table. -/
theorem claim7_memoize_shares {A B : Type} [DecidableEq A] (fn : A → B)
    (memo : List (A × B)) (args args2 : A) (hdeep : args2 = args) :
    ∃ r memo1 c1,
      memoApply fn memo args = (r, memo1, c1) ∧
      (∃ tail, memo1 = memo ++ tail) ∧
      (∃ item ∈ memo1, item.2 = r) ∧
      memoApply fn memo1 args2 = (r, memo1, false) := by
  subst hdeep
  cases h : memo.find? (fun item => item.1 = args2) with
  | some item =>
    refine ⟨item.2, memo, false, by simp [memoApply, h], ⟨[], by simp⟩,
      ⟨item, List.mem_of_find?_eq_some h, rfl⟩, by simp [memoApply, h]⟩
  | none =>
    refine ⟨fn args2, memo ++ [(args2, fn args2)], true,
      by simp [memoApply, h], ⟨[(args2, fn args2)], rfl⟩,
      ⟨(args2, fn args2), by simp, rfl⟩, ?_⟩
    have hfind : (memo ++ [(args2, fn args2)]).find?
        (fun item => item.1 = args2) = some (args2, fn args2) := by
      rw [List.find?_append, h]
      simp
    simp [memoApply, hfind]

theorem claim7_witness :
    ∃ r memo1 c1,
      memoApply (fun n : Nat => n + 1) [] 0 = (r, memo1, c1) ∧
      (∃ tail, memo1 = [] ++ tail) ∧
      (∃ item ∈ memo1, item.2 = r) ∧
      memoApply (fun n : Nat => n + 1) memo1 0 = (r, memo1, false) :=
  claim7_memoize_shares (fun n : Nat => n + 1) [] 0 0 rfl
